import Mathlib

/-!
Verification development for the `try-ray-tracing` repository: a shallow
embedding of the core rendering pipeline (vector geometry, sphere
intersection, dielectric scattering, camera ray generation, the recursive
integrator, and the color pipeline), with theorems settling the frozen
claims about it.  IEEE-754 doubles are modelled as real numbers; the
random draws consumed by `random_double` are passed as explicit
parameters.
-/

noncomputable section

namespace TryRayTracing

/-! ## Geometry (`src/geometry.rs`) -/

/-- Free 3D vector, mirroring `Vec3`. -/
structure Vec3 where
  x : ℝ
  y : ℝ
  z : ℝ


namespace Vec3

def add (v w : Vec3) : Vec3 := ⟨v.x + w.x, v.y + w.y, v.z + w.z⟩

def subtract (v w : Vec3) : Vec3 := ⟨v.x - w.x, v.y - w.y, v.z - w.z⟩

def scale (v : Vec3) (ratio : ℝ) : Vec3 := ⟨v.x * ratio, v.y * ratio, v.z * ratio⟩

def divide (v : Vec3) (d : ℝ) : Vec3 := ⟨v.x / d, v.y / d, v.z / d⟩

def length_squared (v : Vec3) : ℝ := v.x * v.x + v.y * v.y + v.z * v.z

noncomputable def length (v : Vec3) : ℝ := Real.sqrt v.length_squared

def inner_product (v w : Vec3) : ℝ := v.x * w.x + v.y * w.y + v.z * w.z

def cross_product (v w : Vec3) : Vec3 :=
  ⟨v.y * w.z - v.z * w.y, v.z * w.x - v.x * w.z, v.x * w.y - v.y * w.x⟩

end Vec3

/-- 3D unit vector type, mirroring `UnitVec3`.  As in the source, the
structure itself carries no invariant; unit length holds by construction
through `UnitVec3.new` on nonzero input. -/
structure UnitVec3 where
  x : ℝ
  y : ℝ
  z : ℝ


namespace UnitVec3

/-- Mirrors `UnitVec3::new`: normalize a vector by dividing by its length. -/
noncomputable def new (v : Vec3) : UnitVec3 :=
  let w := v.divide v.length
  ⟨w.x, w.y, w.z⟩

def inject (u : UnitVec3) : Vec3 := ⟨u.x, u.y, u.z⟩

end UnitVec3

/-- Mirrors `Vec3::unit_vector`. -/
noncomputable def Vec3.unit_vector (v : Vec3) : UnitVec3 := UnitVec3.new v

/-- Analysis predicate (not in the source): the payload of a `UnitVec3`
really has length 1. -/
def IsUnitVector (u : UnitVec3) : Prop := u.inject.length = 1

/-- Affine point, mirroring `Point3`. -/
structure Point3 where
  x : ℝ
  y : ℝ
  z : ℝ


namespace Point3

def add (p : Point3) (v : Vec3) : Point3 := ⟨p.x + v.x, p.y + v.y, p.z + v.z⟩

def subtract (p q : Point3) : Vec3 := ⟨p.x - q.x, p.y - q.y, p.z - q.z⟩

end Point3

/-- Ray with origin and (intended-unit) direction, mirroring `Ray`. -/
structure Ray where
  origin : Point3
  direction : UnitVec3

/-- Mirrors `Ray::at`. -/
def Ray.at (r : Ray) (t : ℝ) : Point3 := r.origin.add (r.direction.inject.scale t)

/-- Mirrors `reflect_vector`: reflect `u_in` about the plane orthogonal to
`u_normal`, renormalizing the result. -/
noncomputable def reflect_vector (u_in u_normal : UnitVec3) : UnitVec3 :=
  let v_in := u_in.inject
  let v_normal := u_normal.inject
  (v_in.add (v_normal.scale (-2 * v_in.inner_product v_normal))).unit_vector

/-! ## Colors (`src/color.rs`) -/

/-- RGB color, mirroring `Color`; all fields intended in `[0, 1]`. -/
structure Color where
  r : ℝ
  g : ℝ
  b : ℝ


/-- Per-channel multiplicative attenuation factor, mirroring `Attenuation`. -/
structure Attenuation where
  r : ℝ
  g : ℝ
  b : ℝ


namespace Color

/-- Mirrors `Color::blend`. -/
def blend (c : Color) (t : ℝ) (other : Color) : Color :=
  ⟨(1 - t) * c.r + t * other.r, (1 - t) * c.g + t * other.g, (1 - t) * c.b + t * other.b⟩

/-- Mirrors `Color::attenuate`. -/
def attenuate (c : Color) (a : Attenuation) : Color :=
  ⟨c.r * a.r, c.g * a.g, c.b * a.b⟩

/-- Mirrors `Color::average`: sum each channel over the list, then divide by the
list length — with no guard against an empty list. -/
def average (colors : List Color) : Color :=
  let r := colors.foldl (fun acc c => acc + c.r) 0
  let g := colors.foldl (fun acc c => acc + c.g) 0
  let b := colors.foldl (fun acc c => acc + c.b) 0
  let num : ℝ := (colors.length : ℝ)
  ⟨r / num, g / num, b / num⟩

end Color

/-! ## Hittable objects and materials (`src/hittable_object.rs`) -/

/-- Intersection information, mirroring `HitRecord`. -/
structure HitRecord where
  t : ℝ
  surface_normal : UnitVec3

/-- Schlick's reflectance approximation, mirroring `reflectance`. -/
def reflectance (cosine refraction_index : ℝ) : ℝ :=
  let r0 := (1 - refraction_index) / (1 + refraction_index)
  let r1 := r0 * r0
  r1 + (1 - r1) * (1 - cosine) ^ (5 : ℕ)

/-- Glass (dielectric) material, mirroring `Glass`. -/
structure Glass where
  eta : ℝ
  albedo : Attenuation

/-- Mirrors `Glass::scatter`, with the value returned by the call to
`random_double()` (uniform in `[-0.5, 0.5)`) passed in as the explicit
parameter `draw`. -/
def Glass.scatter (g : Glass) (ray_in : Ray) (hit : HitRecord) (draw : ℝ) :
    Attenuation × Ray :=
  let normal_raw := hit.surface_normal.inject
  let direction_in := ray_in.direction.inject
  let inprod_raw := normal_raw.inner_product direction_in
  let quad :=
    if inprod_raw < 0 then
      -- If `ray_in` is coming into the object from the outside:
      (normal_raw, inprod_raw, (1 : ℝ), g.eta)
    else
      -- If `ray_in` is going out of the object from the inside:
      (normal_raw.scale (-1), -inprod_raw, g.eta, (1 : ℝ))
  let normal := quad.1
  let inprod := quad.2.1
  let eta_in := quad.2.2.1
  let eta_out := quad.2.2.2
  -- v := d - (n^T d) n
  let vp_in := direction_in.subtract (normal.scale inprod)
  -- v' := (eta / eta') v
  let vp_out := vp_in.scale (eta_in / eta_out)
  -- c := 1 - |v'|^2
  let coeff_normal := 1 - vp_out.length_squared
  let direction_out :=
    if 0 ≤ coeff_normal then
      -- If the light can refract:
      if reflectance (-inprod) (eta_in / eta_out) > draw then
        reflect_vector ray_in.direction normal.unit_vector
      else
        -- d' = v' - sqrt(c) n
        (vp_out.subtract (normal.scale (Real.sqrt coeff_normal))).unit_vector
    else
      -- If the light cannot refract and performs regular reflection:
      reflect_vector ray_in.direction normal.unit_vector
  (g.albedo, ⟨ray_in.at hit.t, direction_out⟩)

/-- Sphere with an owned material, mirroring `Sphere`; the material type
is kept abstract (`Box<dyn Material>` in the source). -/
structure Sphere (M : Type) where
  center : Point3
  radius : ℝ
  material : M

namespace Sphere

/-- The minimal accepted hit parameter (`t_min` in `Sphere::hit`). -/
def t_min : ℝ := 0.01

/-- The half-coefficient `b_half = v^T d` of the sphere-hit quadratic. -/
def b_half {M : Type} (s : Sphere M) (ray : Ray) : ℝ :=
  ((ray.origin.subtract s.center).inner_product ray.direction.inject)

/-- The constant coefficient `c = |v|^2 - r^2` of the sphere-hit quadratic. -/
def c_coeff {M : Type} (s : Sphere M) (ray : Ray) : ℝ :=
  (ray.origin.subtract s.center).length_squared - s.radius * s.radius

/-- Mirrors `discriminant_quarter = b_half^2 - c`. -/
def discriminant_quarter {M : Type} (s : Sphere M) (ray : Ray) : ℝ :=
  b_half s ray * b_half s ray - c_coeff s ray

/-- The near root `t_minus = -b_half - sqrt(discriminant_quarter)`. -/
def t_minus {M : Type} (s : Sphere M) (ray : Ray) : ℝ :=
  -b_half s ray - Real.sqrt (discriminant_quarter s ray)

/-- The far root `t_plus = -b_half + sqrt(discriminant_quarter)`. -/
def t_plus {M : Type} (s : Sphere M) (ray : Ray) : ℝ :=
  -b_half s ray + Real.sqrt (discriminant_quarter s ray)

/-- Mirrors `Sphere::hit`: solve the quadratic, accept the smallest root that is
`≥ t_min` (near root first, then far root), and report the hit record and
the material. -/
def hit {M : Type} (s : Sphere M) (ray : Ray) : Option (HitRecord × M) :=
  let t_opt : Option ℝ :=
    if discriminant_quarter s ray < 0 then
      -- If the ray does not hit the object at any point:
      none
    else
      if t_minus s ray ≥ t_min then
        -- If the ray hits the surface from the outside:
        some (t_minus s ray)
      else
        if t_plus s ray ≥ t_min then
          -- If the ray hits the surface from the inside:
          some (t_plus s ray)
        else
          none
  match t_opt with
  | none => none
  | some t =>
    let intersection_point := ray.at t
    let surface_normal := (intersection_point.subtract s.center).unit_vector
    some (⟨t, surface_normal⟩, s.material)

end Sphere

/-- Composite scene object, mirroring `HittableList`; each member is
modelled by its `hit` function `Ray → Option (HitRecord × M)`. -/
structure HittableList (M : Type) where
  members : List (Ray → Option (HitRecord × M))

/-- One iteration of the loop body of `HittableList::hit`: fold the next
member's hit result into the current nearest candidate. -/
def hit_fold_step {M : Type} :
    Option (HitRecord × M) → Option (HitRecord × M) → Option (HitRecord × M)
  | acc, none => acc
  | none, some pair => some pair
  | some nearest, some pair =>
    if pair.1.t < nearest.1.t then some pair else some nearest

/-- Mirrors `HittableList::hit`: iterate over the members, keeping the hit with
the strictly smallest `t` (ties keep the earlier member's hit). -/
def HittableList.hit {M : Type} (w : HittableList M) (ray : Ray) :
    Option (HitRecord × M) :=
  w.members.foldl (fun acc hittable => hit_fold_step acc (hittable ray)) none

/-! ## Camera (`src/camera.rs`): the axis-aligned viewport camera. -/

structure Camera where
  origin : Point3
  viewport_width : ℝ
  viewport_height : ℝ
  focal_length : ℝ

namespace Camera

/-- Mirrors `Camera::new`. -/
def new (aspect_ratio : ℝ) (origin : Point3) (viewport_height focal_length : ℝ) :
    Camera :=
  ⟨origin, viewport_height * aspect_ratio, viewport_height, focal_length⟩

/-- Mirrors `Camera::horizontal`. -/
def horizontal (c : Camera) : Vec3 := ⟨c.viewport_width, 0, 0⟩

/-- Mirrors `Camera::vertical`. -/
def vertical (c : Camera) : Vec3 := ⟨0, c.viewport_height, 0⟩

/-- Mirrors `Camera::forward`. -/
def forward (c : Camera) : Vec3 := ⟨0, 0, -c.focal_length⟩

/-- Mirrors `Camera::lower_left_corner`. -/
def lower_left_corner (c : Camera) : Point3 :=
  ((c.origin.add (c.horizontal.scale (-0.5))).add (c.vertical.scale (-0.5))).add
    c.forward

/-- Mirrors `Camera::get_ray`. -/
def get_ray (c : Camera) (u v : ℝ) : Ray :=
  let origin := c.origin
  let direction :=
    ((((c.lower_left_corner.add (c.horizontal.scale u)).add
        (c.vertical.scale v)).subtract origin)).unit_vector
  ⟨origin, direction⟩

end Camera

/-! ## Integrator and gamma stage (`src/main.rs`) -/

/-- The scatter behaviour of a material, as consumed by `ray_color`:
given the incoming ray and the hit record, produce the attenuation and
the child ray (any random draws already resolved). -/
def MaterialFn : Type := Ray → HitRecord → Attenuation × Ray

/-- A scene, as consumed by `ray_color` (`&dyn Hittable` in the source):
a function from rays to the nearest hit, paired with the hit material. -/
def World : Type := Ray → Option (HitRecord × MaterialFn)

/-- Mirrors `ray_background_color`: vertical white-to-sky-blue gradient keyed on
the ray direction's `y` component. -/
def ray_background_color (ray : Ray) : Color :=
  let u := ray.direction
  let t := 0.5 * (u.inject.y + 1)
  let white : Color := ⟨1, 1, 1⟩
  let sky : Color := ⟨0.5, 0.7, 1⟩
  white.blend t sky

/-- Mirrors `ray_color`: the recursive integrator.  Returns black once the
diffusion depth is exhausted, the attenuated recursive color on a hit,
and the background gradient otherwise. -/
def ray_color (world : World) (ray : Ray) (diffusion_depth : ℤ) : Color :=
  if _h : diffusion_depth ≤ 0 then
    ⟨0, 0, 0⟩
  else
    match world ray with
    | some (hit, material) =>
      let pair := material ray hit
      let color := ray_color world pair.2 (diffusion_depth - 1)
      color.attenuate pair.1
    | none => ray_background_color ray
termination_by diffusion_depth.toNat
decreasing_by omega

/-- Mirrors `filter_color`: gamma correction via per-channel square root. -/
def filter_color (color : Color) : Color :=
  ⟨Real.sqrt color.r, Real.sqrt color.g, Real.sqrt color.b⟩

/-! ## Analysis-only definitions -/

/-- The unnormalized reflected vector `d − 2 (d·n) n` computed inside
`reflect_vector`. -/
def reflect_core (d n : Vec3) : Vec3 :=
  d.add (n.scale (-2 * d.inner_product n))

/-- Structural-recursion description of what the fold in
`HittableList::hit` computes: the first hit with minimal `t` among a list
of per-member hit results. -/
def select_nearest {M : Type} : List (Option (HitRecord × M)) → Option (HitRecord × M)
  | [] => none
  | none :: rest => select_nearest rest
  | some p :: rest =>
    match select_nearest rest with
    | none => some p
    | some q => if q.1.t < p.1.t then some q else some p

/-- Every channel of a color lies in `[0, 1]`. -/
def color_in_range (c : Color) : Prop :=
  0 ≤ c.r ∧ c.r ≤ 1 ∧ 0 ≤ c.g ∧ c.g ≤ 1 ∧ 0 ≤ c.b ∧ c.b ≤ 1

/-- Every channel of an attenuation (albedo) lies in `[0, 1]`. -/
def attenuation_in_range (a : Attenuation) : Prop :=
  0 ≤ a.r ∧ a.r ≤ 1 ∧ 0 ≤ a.g ∧ a.g ≤ 1 ∧ 0 ≤ a.b ∧ a.b ≤ 1

/-- A scene is well-formed for the range invariant when every material it
can report produces attenuations with channels in `[0, 1]` and scattered
child rays with unit directions (as the source's materials do, via
`unit_vector` normalization). -/
def world_well_formed (world : World) : Prop :=
  ∀ (r : Ray) (hit : HitRecord) (material : MaterialFn),
    world r = some (hit, material) →
      ∀ (r' : Ray) (h' : HitRecord),
        attenuation_in_range (material r' h').1 ∧
          IsUnitVector (material r' h').2.direction

/-! ## Basic facts about the geometry embedding -/

theorem Vec3.length_squared_nonneg (v : Vec3) : 0 ≤ v.length_squared := by
  have hx : 0 ≤ v.x * v.x := mul_self_nonneg _
  have hy : 0 ≤ v.y * v.y := mul_self_nonneg _
  have hz : 0 ≤ v.z * v.z := mul_self_nonneg _
  unfold Vec3.length_squared
  linarith

theorem Vec3.length_eq_one_iff (v : Vec3) : v.length = 1 ↔ v.length_squared = 1 := by
  rw [Vec3.length, Real.sqrt_eq_one]

/-- Normalizing a vector that already has length 1 returns it unchanged. -/
theorem Vec3.unit_vector_of_unit (v : Vec3) (h : v.length = 1) :
    v.unit_vector = ⟨v.x, v.y, v.z⟩ := by
  simp [Vec3.unit_vector, UnitVec3.new, Vec3.divide, h]

theorem IsUnitVector.length_squared_eq_one {u : UnitVec3} (h : IsUnitVector u) :
    u.inject.length_squared = 1 :=
  (Vec3.length_eq_one_iff _).mp h

/-! ## C5: depth exhaustion returns black -/

/-- C5: for every ray, every scene, and every depth value `≤ 0`,
`ray_color` returns black `(0, 0, 0)` regardless of the ray or the scene
contents. -/
theorem ray_color_depth_nonpos_black (world : World) (ray : Ray) (depth : ℤ)
    (h : depth ≤ 0) : ray_color world ray depth = ⟨0, 0, 0⟩ := by
  rw [ray_color]
  exact dif_pos h

/-- Witness for C5 at depth `0` with an empty scene. -/
theorem ray_color_depth_nonpos_black_witness :
    ray_color (fun _ => none) ⟨⟨0, 0, 0⟩, ⟨0, 0, -1⟩⟩ 0 = ⟨0, 0, 0⟩ :=
  ray_color_depth_nonpos_black (fun _ => none) ⟨⟨0, 0, 0⟩, ⟨0, 0, -1⟩⟩ 0 (le_refl 0)

/-! ## C9: gamma-correction fixed points -/

theorem sqrt_idempotent_iff (x : ℝ) (h0 : 0 ≤ x) :
    Real.sqrt (Real.sqrt x) = Real.sqrt x ↔ x = 0 ∨ x = 1 := by
  constructor
  · intro h
    have hsq : Real.sqrt x ^ 2 = Real.sqrt x := by
      conv_lhs => rw [← h]
      exact Real.sq_sqrt (Real.sqrt_nonneg x)
    have hfac : Real.sqrt x * (Real.sqrt x - 1) = 0 := by ring_nf; nlinarith [hsq]
    rcases mul_eq_zero.mp hfac with h1 | h2
    · exact Or.inl ((Real.sqrt_eq_zero h0).mp h1)
    · exact Or.inr (Real.sqrt_eq_one.mp (by linarith))
  · rintro (rfl | rfl)
    · rw [Real.sqrt_zero, Real.sqrt_zero]
    · rw [Real.sqrt_one, Real.sqrt_one]

theorem lt_sqrt_self (x : ℝ) (h0 : 0 < x) (h1 : x < 1) : x < Real.sqrt x := by
  rw [Real.lt_sqrt h0.le]
  nlinarith

/-- C9: gamma correction (`filter_color`, per-channel square root) has
exactly `0` and `1` as fixed points under re-application over channel
values in `[0, 1]`, and for every channel value `x` with `0 < x < 1`,
`sqrt x > x`. -/
theorem filter_color_fixed_points (c : Color)
    (hr0 : 0 ≤ c.r) (hr1 : c.r ≤ 1) (hg0 : 0 ≤ c.g) (hg1 : c.g ≤ 1)
    (hb0 : 0 ≤ c.b) (hb1 : c.b ≤ 1) :
    (filter_color (filter_color c) = filter_color c ↔
      ((c.r = 0 ∨ c.r = 1) ∧ (c.g = 0 ∨ c.g = 1) ∧ (c.b = 0 ∨ c.b = 1))) ∧
    (0 < c.r → c.r < 1 → c.r < (filter_color c).r) ∧
    (0 < c.g → c.g < 1 → c.g < (filter_color c).g) ∧
    (0 < c.b → c.b < 1 → c.b < (filter_color c).b) := by
  refine ⟨?_, ?_, ?_, ?_⟩
  · simp only [filter_color, Color.mk.injEq]
    exact and_congr (sqrt_idempotent_iff _ hr0)
      (and_congr (sqrt_idempotent_iff _ hg0) (sqrt_idempotent_iff _ hb0))
  · exact fun h h' => lt_sqrt_self _ h h'
  · exact fun h h' => lt_sqrt_self _ h h'
  · exact fun h h' => lt_sqrt_self _ h h'

/-- Witness for C9 at the color `(1/4, 0, 1)`. -/
theorem filter_color_fixed_points_witness :
    (filter_color (filter_color ⟨1/4, 0, 1⟩) = filter_color ⟨1/4, 0, 1⟩ ↔
      (((1:ℝ)/4 = 0 ∨ (1:ℝ)/4 = 1) ∧ ((0:ℝ) = 0 ∨ (0:ℝ) = 1) ∧
        ((1:ℝ) = 0 ∨ (1:ℝ) = 1))) ∧
    ((0:ℝ) < 1/4 → (1:ℝ)/4 < 1 → (1:ℝ)/4 < (filter_color ⟨1/4, 0, 1⟩).r) ∧
    ((0:ℝ) < 0 → (0:ℝ) < 1 → (0:ℝ) < (filter_color ⟨1/4, 0, 1⟩).g) ∧
    ((0:ℝ) < 1 → (1:ℝ) < 1 → (1:ℝ) < (filter_color ⟨1/4, 0, 1⟩).b) :=
  filter_color_fixed_points ⟨1/4, 0, 1⟩ (by norm_num) (by norm_num) (by norm_num)
    (by norm_num) (by norm_num) (by norm_num)

/-! ## C10: `Color::average` divides by the unguarded list length -/

theorem foldl_add_replicate (f : Color → ℝ) :
    ∀ (n : ℕ) (c : Color) (a : ℝ),
      (List.replicate n c).foldl (fun acc x => acc + f x) a = a + n * f c := by
  intro n
  induction n with
  | zero => intro c a; simp
  | succ m ih =>
    intro c a
    rw [List.replicate_succ, List.foldl_cons, ih]
    push_cast
    ring

/-- C10: `Color::average` divides each channel sum by the list length with
no emptiness guard: for a length-`n` list of copies of one color with
`n ≥ 1`, the result is that color unchanged; for the empty list every
channel is the unguarded quotient `0 / 0` (in IEEE-754 this is NaN; in the
real-number model division by zero is the junk value `0/0`), and the
divisor is nonzero exactly under the nonempty precondition. -/
theorem average_unguarded_division :
    (∀ (n : ℕ) (c : Color), 1 ≤ n → Color.average (List.replicate n c) = c) ∧
    (Color.average [] = ⟨(0:ℝ)/0, (0:ℝ)/0, (0:ℝ)/0⟩) ∧
    (∀ l : List Color, l ≠ [] → ((l.length : ℝ) ≠ 0)) := by
  refine ⟨?_, ?_, ?_⟩
  · intro n c hn
    have hne : (n : ℝ) ≠ 0 := by
      have : 0 < n := hn
      positivity
    simp only [Color.average, foldl_add_replicate, List.length_replicate, zero_add]
    cases c
    simp only [Color.mk.injEq]
    refine ⟨?_, ?_, ?_⟩ <;> field_simp
  · simp [Color.average]
  · intro l hl
    have : 0 < l.length := List.length_pos.mpr hl
    positivity

/-- Witness for C10: averaging two copies of `(1/2, 1/3, 1/4)` returns it
unchanged. -/
theorem average_unguarded_division_witness :
    Color.average (List.replicate 2 ⟨1/2, 1/3, 1/4⟩) = ⟨1/2, 1/3, 1/4⟩ :=
  average_unguarded_division.1 2 ⟨1/2, 1/3, 1/4⟩ (by norm_num)

/-! ## C8: reflection -/

theorem reflect_core_length_squared (d n : Vec3)
    (hd : d.length_squared = 1) (hn : n.length_squared = 1) :
    (reflect_core d n).length_squared = 1 := by
  obtain ⟨dx, dy, dz⟩ := d
  obtain ⟨nx, ny, nz⟩ := n
  simp only [Vec3.length_squared] at hd hn
  simp only [reflect_core, Vec3.add, Vec3.scale, Vec3.inner_product, Vec3.length_squared]
  linear_combination hd + (4 * (dx * nx + dy * ny + dz * nz) ^ 2) * hn

theorem reflect_core_involutive (d n : Vec3) (hn : n.length_squared = 1) :
    reflect_core (reflect_core d n) n = d := by
  obtain ⟨dx, dy, dz⟩ := d
  obtain ⟨nx, ny, nz⟩ := n
  simp only [Vec3.length_squared] at hn
  simp only [reflect_core, Vec3.add, Vec3.scale, Vec3.inner_product, Vec3.mk.injEq]
  refine ⟨?_, ?_, ?_⟩
  · linear_combination (4 * (dx * nx + dy * ny + dz * nz) * nx) * hn
  · linear_combination (4 * (dx * nx + dy * ny + dz * nz) * ny) * hn
  · linear_combination (4 * (dx * nx + dy * ny + dz * nz) * nz) * hn

/-- On unit inputs, `reflect_vector` is `reflect_core` followed by a
normalization that does nothing. -/
theorem reflect_vector_eq_core (d n : UnitVec3)
    (hd : IsUnitVector d) (hn : IsUnitVector n) :
    reflect_vector d n =
      ⟨(reflect_core d.inject n.inject).x, (reflect_core d.inject n.inject).y,
        (reflect_core d.inject n.inject).z⟩ := by
  have hlen : (reflect_core d.inject n.inject).length = 1 :=
    (Vec3.length_eq_one_iff _).mpr
      (reflect_core_length_squared _ _ hd.length_squared_eq_one hn.length_squared_eq_one)
  rw [reflect_vector]
  rw [show d.inject.add (n.inject.scale (-2 * d.inject.inner_product n.inject)) =
      reflect_core d.inject n.inject from rfl]
  rw [Vec3.unit_vector_of_unit _ hlen]

/-- C8: `reflect_vector` computes (the normalization of)
`d − 2 (d·n) n`; on unit inputs it returns a unit vector (it preserves the
unit length), and applying it twice with the same normal returns the
original direction. -/
theorem reflect_vector_unit_involutive (d n : UnitVec3)
    (hd : IsUnitVector d) (hn : IsUnitVector n) :
    (reflect_vector d n).inject =
      d.inject.add (n.inject.scale (-2 * d.inject.inner_product n.inject)) ∧
    IsUnitVector (reflect_vector d n) ∧
    reflect_vector (reflect_vector d n) n = d := by
  have hcore := reflect_vector_eq_core d n hd hn
  have hinj : (reflect_vector d n).inject = reflect_core d.inject n.inject := by
    rw [hcore]; rfl
  have hunit : IsUnitVector (reflect_vector d n) := by
    rw [IsUnitVector, hinj]
    exact (Vec3.length_eq_one_iff _).mpr
      (reflect_core_length_squared _ _ hd.length_squared_eq_one hn.length_squared_eq_one)
  refine ⟨hinj, hunit, ?_⟩
  have hcore2 := reflect_vector_eq_core (reflect_vector d n) n hunit hn
  rw [hcore2, hinj, reflect_core_involutive _ _ hn.length_squared_eq_one]
  rfl

/-- Witness for C8 at `d = (3/5, 4/5, 0)`, `n = (0, 1, 0)`. -/
theorem reflect_vector_unit_involutive_witness :
    (reflect_vector ⟨3/5, 4/5, 0⟩ ⟨0, 1, 0⟩).inject =
      (UnitVec3.inject ⟨3/5, 4/5, 0⟩).add
        ((UnitVec3.inject ⟨0, 1, 0⟩).scale
          (-2 * (UnitVec3.inject ⟨3/5, 4/5, 0⟩).inner_product
            (UnitVec3.inject ⟨0, 1, 0⟩))) ∧
    IsUnitVector (reflect_vector ⟨3/5, 4/5, 0⟩ ⟨0, 1, 0⟩) ∧
    reflect_vector (reflect_vector ⟨3/5, 4/5, 0⟩ ⟨0, 1, 0⟩) ⟨0, 1, 0⟩ =
      ⟨3/5, 4/5, 0⟩ :=
  reflect_vector_unit_involutive ⟨3/5, 4/5, 0⟩ ⟨0, 1, 0⟩
    (by
      rw [IsUnitVector, Vec3.length_eq_one_iff]
      norm_num [UnitVec3.inject, Vec3.length_squared])
    (by
      rw [IsUnitVector, Vec3.length_eq_one_iff]
      norm_num [UnitVec3.inject, Vec3.length_squared])

/-! ## C4: a ray from inside a sphere hits at the far root -/

/-- C4: for every sphere and every ray whose origin lies strictly inside
the sphere, whenever `Sphere::hit` reports an intersection, the accepted
hit parameter is the far root `t_plus`, and the near root `t_minus` is
negative (hence below the epsilon `t_min = 0.01`). -/
theorem sphere_hit_inside_far_root {M : Type} (s : Sphere M) (ray : Ray)
    (rec : HitRecord) (m : M)
    (hin : (ray.origin.subtract s.center).length_squared < s.radius * s.radius)
    (hhit : s.hit ray = some (rec, m)) :
    rec.t = Sphere.t_plus s ray ∧ Sphere.t_minus s ray < 0 ∧
      Sphere.t_minus s ray < Sphere.t_min := by
  have hc : Sphere.c_coeff s ray < 0 := by
    unfold Sphere.c_coeff
    linarith
  have hb2 : 0 ≤ Sphere.b_half s ray * Sphere.b_half s ray := mul_self_nonneg _
  have hdisc : 0 < Sphere.discriminant_quarter s ray := by
    unfold Sphere.discriminant_quarter
    linarith
  have hsq : |Sphere.b_half s ray| < Real.sqrt (Sphere.discriminant_quarter s ray) := by
    rw [← Real.sqrt_mul_self_eq_abs]
    exact Real.sqrt_lt_sqrt hb2 (by unfold Sphere.discriminant_quarter; linarith)
  have htm : Sphere.t_minus s ray < 0 := by
    have hle : -Sphere.b_half s ray ≤ |Sphere.b_half s ray| := neg_le_abs _
    unfold Sphere.t_minus
    linarith
  have htmin : Sphere.t_minus s ray < Sphere.t_min := by
    have : (0 : ℝ) < Sphere.t_min := by unfold Sphere.t_min; norm_num
    linarith
  refine ⟨?_, htm, htmin⟩
  simp only [Sphere.hit] at hhit
  rw [if_neg (not_lt.mpr hdisc.le), if_neg (not_le.mpr htmin)] at hhit
  by_cases hp : Sphere.t_plus s ray ≥ Sphere.t_min
  · rw [if_pos hp] at hhit
    simp only [Option.some.injEq, Prod.mk.injEq] at hhit
    rw [← hhit.1]
  · rw [if_neg hp] at hhit
    exact absurd hhit (by simp)

/-- Witness for C4: unit sphere about the origin of the ray. -/
theorem sphere_hit_inside_far_root_witness :
    (HitRecord.mk 1 ⟨0, 0, -1⟩).t =
      Sphere.t_plus (⟨⟨0, 0, 0⟩, 1, ()⟩ : Sphere Unit) ⟨⟨0, 0, 0⟩, ⟨0, 0, -1⟩⟩ ∧
    Sphere.t_minus (⟨⟨0, 0, 0⟩, 1, ()⟩ : Sphere Unit) ⟨⟨0, 0, 0⟩, ⟨0, 0, -1⟩⟩ < 0 ∧
    Sphere.t_minus (⟨⟨0, 0, 0⟩, 1, ()⟩ : Sphere Unit) ⟨⟨0, 0, 0⟩, ⟨0, 0, -1⟩⟩ <
      Sphere.t_min :=
  sphere_hit_inside_far_root (⟨⟨0, 0, 0⟩, 1, ()⟩ : Sphere Unit)
    ⟨⟨0, 0, 0⟩, ⟨0, 0, -1⟩⟩ ⟨1, ⟨0, 0, -1⟩⟩ ()
    (by norm_num [Point3.subtract, Vec3.length_squared])
    (by
      norm_num [Sphere.hit, Sphere.discriminant_quarter, Sphere.b_half,
        Sphere.c_coeff, Sphere.t_minus, Sphere.t_plus, Sphere.t_min,
        Point3.subtract, Vec3.inner_product, Vec3.length_squared,
        UnitVec3.inject, Ray.at, Point3.add, Vec3.scale, Vec3.unit_vector,
        UnitVec3.new, Vec3.divide, Vec3.length, Real.sqrt_one])

/-! ## C3: tangent rays (zero discriminant) -/

/-- Counterexample to C3: a ray exactly tangent to a sphere (zero
discriminant) is reported as a hit, since `Sphere::hit` only rejects
`discriminant_quarter < 0` strictly.  Sphere center `(0,0,-2)`, radius 1,
ray from `(1,0,0)` along `(0,0,-1)`: discriminant is zero yet the hit at
`t = 2` with normal `(1,0,0)` is returned. -/
theorem sphere_hit_tangent_counterexample :
    Sphere.discriminant_quarter (⟨⟨0, 0, -2⟩, 1, ()⟩ : Sphere Unit)
        ⟨⟨1, 0, 0⟩, ⟨0, 0, -1⟩⟩ = 0 ∧
    Sphere.hit (⟨⟨0, 0, -2⟩, 1, ()⟩ : Sphere Unit) ⟨⟨1, 0, 0⟩, ⟨0, 0, -1⟩⟩ =
      some (⟨2, ⟨1, 0, 0⟩⟩, ()) ∧
    Sphere.hit (⟨⟨0, 0, -2⟩, 1, ()⟩ : Sphere Unit) ⟨⟨1, 0, 0⟩, ⟨0, 0, -1⟩⟩ ≠
      none := by
  have hd : Sphere.discriminant_quarter (⟨⟨0, 0, -2⟩, 1, ()⟩ : Sphere Unit)
      ⟨⟨1, 0, 0⟩, ⟨0, 0, -1⟩⟩ = 0 := by
    norm_num [Sphere.discriminant_quarter, Sphere.b_half, Sphere.c_coeff,
      Point3.subtract, Vec3.inner_product, Vec3.length_squared, UnitVec3.inject]
  have hh : Sphere.hit (⟨⟨0, 0, -2⟩, 1, ()⟩ : Sphere Unit)
      ⟨⟨1, 0, 0⟩, ⟨0, 0, -1⟩⟩ = some (⟨2, ⟨1, 0, 0⟩⟩, ()) := by
    norm_num [Sphere.hit, Sphere.discriminant_quarter, Sphere.b_half,
      Sphere.c_coeff, Sphere.t_minus, Sphere.t_plus, Sphere.t_min,
      Point3.subtract, Vec3.inner_product, Vec3.length_squared,
      UnitVec3.inject, Ray.at, Point3.add, Vec3.scale, Vec3.unit_vector,
      UnitVec3.new, Vec3.divide, Vec3.length, Real.sqrt_zero, Real.sqrt_one]
  exact ⟨hd, hh, by rw [hh]; simp⟩

/-- C3 (amended): a zero-discriminant (tangent) ray is handled like any
other non-negative discriminant: the double root `-b_half` is accepted
as a hit when it is `≥ t_min = 0.01`, and the ray is a non-hit only when
the double root is `< t_min`.  Only a strictly negative discriminant is
rejected outright. -/
theorem sphere_hit_tangent_amended {M : Type} (s : Sphere M) (ray : Ray)
    (h0 : Sphere.discriminant_quarter s ray = 0) :
    (Sphere.t_min ≤ -Sphere.b_half s ray →
      Sphere.hit s ray =
        some (⟨-Sphere.b_half s ray,
          ((ray.at (-Sphere.b_half s ray)).subtract s.center).unit_vector⟩,
          s.material)) ∧
    (-Sphere.b_half s ray < Sphere.t_min → Sphere.hit s ray = none) := by
  have htm : Sphere.t_minus s ray = -Sphere.b_half s ray := by
    unfold Sphere.t_minus
    rw [h0, Real.sqrt_zero]
    ring
  have htp : Sphere.t_plus s ray = -Sphere.b_half s ray := by
    unfold Sphere.t_plus
    rw [h0, Real.sqrt_zero]
    ring
  constructor
  · intro hge
    simp only [Sphere.hit]
    rw [if_neg (by rw [h0]; exact lt_irrefl 0), if_pos (by rw [htm]; exact hge), htm]
  · intro hlt
    simp only [Sphere.hit]
    rw [if_neg (by rw [h0]; exact lt_irrefl 0),
      if_neg (by rw [htm]; exact not_le.mpr hlt),
      if_neg (by rw [htp]; exact not_le.mpr hlt)]

/-- Witness for the amended C3 at the tangent configuration used in the
counterexample. -/
theorem sphere_hit_tangent_amended_witness :
    (Sphere.t_min ≤
        -Sphere.b_half (⟨⟨0, 0, -2⟩, 1, ()⟩ : Sphere Unit) ⟨⟨1, 0, 0⟩, ⟨0, 0, -1⟩⟩ →
      Sphere.hit (⟨⟨0, 0, -2⟩, 1, ()⟩ : Sphere Unit) ⟨⟨1, 0, 0⟩, ⟨0, 0, -1⟩⟩ =
        some (⟨-Sphere.b_half (⟨⟨0, 0, -2⟩, 1, ()⟩ : Sphere Unit)
            ⟨⟨1, 0, 0⟩, ⟨0, 0, -1⟩⟩,
          ((Ray.at ⟨⟨1, 0, 0⟩, ⟨0, 0, -1⟩⟩
              (-Sphere.b_half (⟨⟨0, 0, -2⟩, 1, ()⟩ : Sphere Unit)
                ⟨⟨1, 0, 0⟩, ⟨0, 0, -1⟩⟩)).subtract ⟨0, 0, -2⟩).unit_vector⟩,
          ())) ∧
    (-Sphere.b_half (⟨⟨0, 0, -2⟩, 1, ()⟩ : Sphere Unit) ⟨⟨1, 0, 0⟩, ⟨0, 0, -1⟩⟩ <
        Sphere.t_min →
      Sphere.hit (⟨⟨0, 0, -2⟩, 1, ()⟩ : Sphere Unit) ⟨⟨1, 0, 0⟩, ⟨0, 0, -1⟩⟩ =
        none) :=
  sphere_hit_tangent_amended (⟨⟨0, 0, -2⟩, 1, ()⟩ : Sphere Unit)
    ⟨⟨1, 0, 0⟩, ⟨0, 0, -1⟩⟩
    (by
      norm_num [Sphere.discriminant_quarter, Sphere.b_half, Sphere.c_coeff,
        Point3.subtract, Vec3.inner_product, Vec3.length_squared, UnitVec3.inject])

/-! ## C6: camera geometry -/

/-- Counterexample to C6: with focal length `2`, `lower_left_corner` is
`origin − horizontal/2 − vertical/2 + (0,0,−focal_length)`, which differs
from `origin − horizontal/2 − vertical/2 + look_direction` for the unit
look direction (the normalized forward vector): the offset has length 2,
not 1. -/
theorem camera_lower_left_corner_counterexample :
    IsUnitVector ((Camera.new 1 ⟨0, 0, 0⟩ 2 2).forward.unit_vector) ∧
    Camera.lower_left_corner (Camera.new 1 ⟨0, 0, 0⟩ 2 2) ≠
      (((Camera.new 1 ⟨0, 0, 0⟩ 2 2).origin.add
          ((Camera.new 1 ⟨0, 0, 0⟩ 2 2).horizontal.scale (-(1/2)))).add
        ((Camera.new 1 ⟨0, 0, 0⟩ 2 2).vertical.scale (-(1/2)))).add
        (((Camera.new 1 ⟨0, 0, 0⟩ 2 2).forward.unit_vector).inject) := by
  have h4 : Real.sqrt 4 = 2 := by
    rw [show (4:ℝ) = 2 ^ 2 by norm_num, Real.sqrt_sq (by norm_num)]
  constructor
  · rw [IsUnitVector, Vec3.length_eq_one_iff]
    norm_num [Camera.new, Camera.forward, Vec3.unit_vector, UnitVec3.new,
      UnitVec3.inject, Vec3.divide, Vec3.length, Vec3.length_squared, h4]
  · intro hcontra
    have := congrArg Point3.z hcontra
    norm_num [Camera.new, Camera.forward, Camera.horizontal, Camera.vertical,
      Camera.lower_left_corner, Vec3.unit_vector, UnitVec3.new, UnitVec3.inject,
      Vec3.divide, Vec3.length, Vec3.length_squared, Vec3.scale, Point3.add,
      h4] at this

/-- C6 (amended): `lower_left_corner` equals
`origin − horizontal/2 − vertical/2 + forward` with
`forward = (0, 0, −focal_length)` (this offset coincides with the unit
look direction only when `focal_length = 1`); and for all `s, t ∈ [0,1]`,
`get_ray(s, t)` returns a ray with origin the camera origin and direction
the normalization of `(lower_left_corner + s·horizontal + t·vertical) −
origin`. -/
theorem camera_lower_left_corner_get_ray (cam : Camera) (s t : ℝ)
    (hs0 : 0 ≤ s) (hs1 : s ≤ 1) (ht0 : 0 ≤ t) (ht1 : t ≤ 1) :
    cam.lower_left_corner =
      ((cam.origin.add (cam.horizontal.scale (-(1/2)))).add
        (cam.vertical.scale (-(1/2)))).add cam.forward ∧
    (cam.get_ray s t).origin = cam.origin ∧
    (cam.get_ray s t).direction =
      (((cam.lower_left_corner.add (cam.horizontal.scale s)).add
        (cam.vertical.scale t)).subtract cam.origin).unit_vector := by
  refine ⟨?_, rfl, rfl⟩
  norm_num [Camera.lower_left_corner]

/-- Witness for the amended C6 at a concrete camera and `s = t = 1/2`. -/
theorem camera_lower_left_corner_get_ray_witness :
    Camera.lower_left_corner (Camera.new 1 ⟨0, 0, 0⟩ 2 2) =
      (((Camera.new 1 ⟨0, 0, 0⟩ 2 2).origin.add
          ((Camera.new 1 ⟨0, 0, 0⟩ 2 2).horizontal.scale (-(1/2)))).add
        ((Camera.new 1 ⟨0, 0, 0⟩ 2 2).vertical.scale (-(1/2)))).add
        (Camera.new 1 ⟨0, 0, 0⟩ 2 2).forward ∧
    ((Camera.new 1 ⟨0, 0, 0⟩ 2 2).get_ray (1/2) (1/2)).origin =
      (Camera.new 1 ⟨0, 0, 0⟩ 2 2).origin ∧
    ((Camera.new 1 ⟨0, 0, 0⟩ 2 2).get_ray (1/2) (1/2)).direction =
      ((((Camera.new 1 ⟨0, 0, 0⟩ 2 2).lower_left_corner.add
          ((Camera.new 1 ⟨0, 0, 0⟩ 2 2).horizontal.scale (1/2))).add
        ((Camera.new 1 ⟨0, 0, 0⟩ 2 2).vertical.scale (1/2))).subtract
        (Camera.new 1 ⟨0, 0, 0⟩ 2 2).origin).unit_vector :=
  camera_lower_left_corner_get_ray (Camera.new 1 ⟨0, 0, 0⟩ 2 2) (1/2) (1/2)
    (by norm_num) (by norm_num) (by norm_num) (by norm_num)

/-! ## C2: index-matched glass -/

/-- C2 fails on the code: for a `Glass` with `eta = 1` there are values of
the uniform draw (here `-2/5`, comfortably inside `random_double`'s range
`[-0.5, 0.5)`) for which `Glass::scatter` takes the reflection branch and
bends the ray.  With the incoming direction `(3/5, −4/5, 0)` and surface
normal `(0, 1, 0)` (the setup of the repository's own
`glass_scatter_test1`, which expects the direction to pass through
unchanged), the scattered direction is the reflection `(3/5, 4/5, 0)`:
Schlick's `reflectance` is `1/3125 > −2/5`, so the probabilistic
reflect-vs-refract choice — made against a draw from `[-0.5, 0.5)` rather
than `[0, 1)` — reflects. -/
theorem glass_scatter_eta_one_bends :
    ((Glass.mk 1 ⟨4/5, 4/5, 4/5⟩).scatter
        ⟨⟨-3, 4, 0⟩, ⟨3/5, -(4/5), 0⟩⟩ ⟨5, ⟨0, 1, 0⟩⟩ (-(2/5))).2.direction =
      ⟨3/5, 4/5, 0⟩ ∧
    (⟨3/5, 4/5, 0⟩ : UnitVec3) ≠ ⟨3/5, -(4/5), 0⟩ ∧
    (-(1:ℝ)/2) ≤ -(2/5) ∧ (-(2:ℝ)/5) < 1/2 := by
  refine ⟨?_, ?_, by norm_num, by norm_num⟩
  · norm_num [Glass.scatter, reflectance, reflect_vector, Vec3.unit_vector,
      UnitVec3.new, UnitVec3.inject, Vec3.inner_product, Vec3.subtract,
      Vec3.scale, Vec3.add, Vec3.divide, Vec3.length, Vec3.length_squared,
      Real.sqrt_one]
  · intro hcontra
    have := congrArg UnitVec3.y hcontra
    norm_num at this

/-! ## C1: `HittableList::hit` returns the nearest member hit -/

theorem select_nearest_cons_some {M : Type} (p : HitRecord × M)
    (rest : List (Option (HitRecord × M))) :
    select_nearest (some p :: rest) = hit_fold_step (some p) (select_nearest rest) := by
  rcases hsel : select_nearest rest with _ | q <;>
    simp only [select_nearest, hsel, hit_fold_step]

theorem foldl_from_some {M : Type} :
    ∀ (l : List (Option (HitRecord × M))) (a : HitRecord × M),
      l.foldl hit_fold_step (some a) = hit_fold_step (some a) (select_nearest l) := by
  intro l
  induction l with
  | nil => intro a; rfl
  | cons o rest ih =>
    intro a
    cases o with
    | none =>
      rw [List.foldl_cons]
      show rest.foldl hit_fold_step (some a) = _
      rw [ih a]
      rfl
    | some p =>
      rw [List.foldl_cons, select_nearest_cons_some]
      show rest.foldl hit_fold_step (if p.1.t < a.1.t then some p else some a) = _
      by_cases hpa : p.1.t < a.1.t
      · rw [if_pos hpa, ih p]
        rcases hsel : select_nearest rest with _ | q
        · simp only [hit_fold_step]
          rw [if_pos hpa]
        · simp only [hit_fold_step]
          by_cases hqp : q.1.t < p.1.t
          · rw [if_pos hqp]
            simp only [hit_fold_step]
            rw [if_pos (show q.1.t < a.1.t by linarith)]
          · rw [if_neg hqp]
            simp only [hit_fold_step]
            rw [if_pos hpa]
      · rw [if_neg hpa, ih a]
        rcases hsel : select_nearest rest with _ | q
        · simp only [hit_fold_step]
          rw [if_neg hpa]
        · simp only [hit_fold_step]
          by_cases hqp : q.1.t < p.1.t
          · rw [if_pos hqp]
          · rw [if_neg hqp]
            simp only [hit_fold_step]
            rw [if_neg hpa,
              if_neg (show ¬ q.1.t < a.1.t by
                rw [not_lt] at hpa hqp ⊢
                linarith)]

theorem foldl_from_none {M : Type} (l : List (Option (HitRecord × M))) :
    l.foldl hit_fold_step none = select_nearest l := by
  induction l with
  | nil => rfl
  | cons o rest ih =>
    cases o with
    | none => rw [List.foldl_cons]; exact ih
    | some p =>
      rw [List.foldl_cons]
      show rest.foldl hit_fold_step (some p) = _
      rw [foldl_from_some rest p]
      rcases hsel : select_nearest rest with _ | q <;>
        simp only [select_nearest, hsel, hit_fold_step]

theorem select_nearest_eq_none_iff {M : Type} (l : List (Option (HitRecord × M))) :
    select_nearest l = none ↔ ∀ o ∈ l, o = none := by
  induction l with
  | nil => simp [select_nearest]
  | cons o rest ih =>
    cases o with
    | none => simp [select_nearest, ih]
    | some p =>
      rw [select_nearest_cons_some]
      rcases hsel : select_nearest rest with _ | q
      · simp only [hit_fold_step]
        simp
      · simp only [hit_fold_step]
        split_ifs <;> simp

theorem select_nearest_spec {M : Type} :
    ∀ (l : List (Option (HitRecord × M))) (p : HitRecord × M),
      select_nearest l = some p →
        ∃ i, l.get? i = some (some p) ∧
          ∀ j q, l.get? j = some (some q) →
            p.1.t ≤ q.1.t ∧ (j < i → p.1.t < q.1.t) := by
  intro l
  induction l with
  | nil => intro p h; exact absurd h (by simp [select_nearest])
  | cons o rest ih =>
    intro p h
    cases o with
    | none =>
      rw [show select_nearest (none :: rest) = select_nearest rest from rfl] at h
      obtain ⟨i, hi, hmin⟩ := ih p h
      refine ⟨i + 1, by simpa using hi, ?_⟩
      intro j q hj
      cases j with
      | zero => simp at hj
      | succ j' =>
        obtain ⟨hle, hlt⟩ := hmin j' q (by simpa using hj)
        exact ⟨hle, fun hji => hlt (by omega)⟩
    | some a =>
      rw [select_nearest_cons_some] at h
      rcases hsel : select_nearest rest with _ | b
      · rw [hsel] at h
        simp only [hit_fold_step, Option.some.injEq] at h
        subst h
        refine ⟨0, by simp, ?_⟩
        intro j q hj
        cases j with
        | zero =>
          simp only [List.get?_cons_zero, Option.some.injEq] at hj
          subst hj
          exact ⟨le_refl _, fun hj0 => absurd hj0 (by omega)⟩
        | succ j' =>
          exfalso
          have hmem : some q ∈ rest := List.get?_mem (by simpa using hj)
          have := (select_nearest_eq_none_iff rest).mp hsel (some q) hmem
          simp at this
      · rw [hsel] at h
        simp only [hit_fold_step] at h
        by_cases hba : b.1.t < a.1.t
        · rw [if_pos hba] at h
          simp only [Option.some.injEq] at h
          subst h
          obtain ⟨i, hi, hmin⟩ := ih _ hsel
          refine ⟨i + 1, by simpa using hi, ?_⟩
          intro j q hj
          cases j with
          | zero =>
            simp only [List.get?_cons_zero, Option.some.injEq] at hj
            subst hj
            exact ⟨hba.le, fun _ => hba⟩
          | succ j' =>
            obtain ⟨hle, hlt⟩ := hmin j' q (by simpa using hj)
            exact ⟨hle, fun hji => hlt (by omega)⟩
        · rw [if_neg hba] at h
          simp only [Option.some.injEq] at h
          subst h
          obtain ⟨i, hi, hmin⟩ := ih b hsel
          refine ⟨0, by simp, ?_⟩
          intro j q hj
          cases j with
          | zero =>
            simp only [List.get?_cons_zero, Option.some.injEq] at hj
            subst hj
            exact ⟨le_refl _, fun hj0 => absurd hj0 (by omega)⟩
          | succ j' =>
            obtain ⟨hle, _⟩ := hmin j' q (by simpa using hj)
            exact ⟨le_trans (not_lt.mp hba) hle, fun hj0 => absurd hj0 (by omega)⟩

theorem hittable_list_hit_eq_select {M : Type} (w : HittableList M) (ray : Ray) :
    w.hit ray = select_nearest (w.members.map (fun f => f ray)) := by
  rw [HittableList.hit, ← foldl_from_none, List.foldl_map]

/-- C1: `HittableList::hit` returns `None` iff no member reports a hit
(in particular on an empty member list), and any returned intersection is
a member's hit whose parameter `t` is globally minimal, with a hit of a
strictly earlier member being strictly farther (so ties keep the first
member in order). -/
theorem hittable_list_hit_nearest {M : Type} (w : HittableList M) (ray : Ray) :
    (w.hit ray = none ↔ ∀ f ∈ w.members, f ray = none) ∧
    (∀ p, w.hit ray = some p →
      ∃ i f, w.members.get? i = some f ∧ f ray = some p ∧
        ∀ j g q, w.members.get? j = some g → g ray = some q →
          p.1.t ≤ q.1.t ∧ (j < i → p.1.t < q.1.t)) := by
  rw [hittable_list_hit_eq_select]
  constructor
  · rw [select_nearest_eq_none_iff]
    constructor
    · intro h f hf
      exact h (f ray) (List.mem_map.mpr ⟨f, hf, rfl⟩)
    · intro h o ho
      obtain ⟨f, hf, rfl⟩ := List.mem_map.mp ho
      exact h f hf
  · intro p h
    obtain ⟨i, hi, hmin⟩ := select_nearest_spec _ p h
    rw [List.get?_map] at hi
    obtain ⟨f, hf, hfp⟩ := Option.map_eq_some'.mp hi
    refine ⟨i, f, hf, hfp, ?_⟩
    intro j g q hj hgq
    exact hmin j q (by rw [List.get?_map, hj, Option.map_some', hgq])

/-- Witness for C1: the empty scene reports no hit. -/
theorem hittable_list_hit_nearest_witness :
    HittableList.hit (⟨[]⟩ : HittableList ℕ) ⟨⟨0, 0, 0⟩, ⟨0, 0, -1⟩⟩ = none :=
  (hittable_list_hit_nearest (⟨[]⟩ : HittableList ℕ)
    ⟨⟨0, 0, 0⟩, ⟨0, 0, -1⟩⟩).1.mpr (by simp)

example :
    HittableList.hit
      (⟨[fun _ => some (⟨2, ⟨0, 0, 1⟩⟩, (0 : ℕ)),
         fun _ => some (⟨1, ⟨0, 0, 1⟩⟩, 1)]⟩ : HittableList ℕ)
      ⟨⟨0, 0, 0⟩, ⟨0, 0, -1⟩⟩ = some (⟨1, ⟨0, 0, 1⟩⟩, 1) := by
  norm_num [HittableList.hit, hit_fold_step]

/-! ## C7: the integrator keeps every channel in `[0, 1]` -/

theorem background_in_range (ray : Ray) (h : IsUnitVector ray.direction) :
    color_in_range (ray_background_color ray) := by
  have hls : ray.direction.inject.length_squared = 1 := h.length_squared_eq_one
  simp only [Vec3.length_squared, UnitVec3.inject] at hls
  have hy1 : ray.direction.y ≤ 1 := by
    nlinarith [mul_self_nonneg ray.direction.x, mul_self_nonneg ray.direction.z,
      mul_self_nonneg (ray.direction.y - 1)]
  have hy0 : -1 ≤ ray.direction.y := by
    nlinarith [mul_self_nonneg ray.direction.x, mul_self_nonneg ray.direction.z,
      mul_self_nonneg (ray.direction.y + 1)]
  simp only [ray_background_color, Color.blend, color_in_range, UnitVec3.inject]
  refine ⟨?_, ?_, ?_, ?_, ?_, ?_⟩ <;> nlinarith

theorem attenuate_in_range (c : Color) (a : Attenuation)
    (hc : color_in_range c) (ha : attenuation_in_range a) :
    color_in_range (c.attenuate a) := by
  obtain ⟨hc1, hc2, hc3, hc4, hc5, hc6⟩ := hc
  obtain ⟨ha1, ha2, ha3, ha4, ha5, ha6⟩ := ha
  simp only [color_in_range, Color.attenuate]
  refine ⟨mul_nonneg hc1 ha1, ?_, mul_nonneg hc3 ha3, ?_, mul_nonneg hc5 ha5, ?_⟩ <;>
    nlinarith

theorem ray_color_in_range_aux (world : World) (hw : world_well_formed world) :
    ∀ (n : ℕ) (depth : ℤ), depth.toNat ≤ n → ∀ ray, IsUnitVector ray.direction →
      color_in_range (ray_color world ray depth) := by
  intro n
  induction n with
  | zero =>
    intro depth hdn ray _
    have hd : depth ≤ 0 := by omega
    rw [ray_color, dif_pos hd]
    norm_num [color_in_range]
  | succ m ihm =>
    intro depth hdn ray hray
    by_cases hd : depth ≤ 0
    · rw [ray_color, dif_pos hd]
      norm_num [color_in_range]
    · rw [ray_color, dif_neg hd]
      rcases hworld : world ray with _ | ⟨hit, material⟩
      · exact background_in_range ray hray
      · show color_in_range
          ((ray_color world (material ray hit).2 (depth - 1)).attenuate
            (material ray hit).1)
        have hmat := hw ray hit material hworld ray hit
        exact attenuate_in_range _ _ (ihm (depth - 1) (by omega) _ hmat.2) hmat.1

/-- C7: for every scene whose materials only produce albedo channels in
`[0, 1]` and unit scattered directions, every ray with a unit direction,
and every depth `≥ 0`, each channel of the color returned by `ray_color`
lies in `[0, 1]` (black and the background gradient are in range, and
channel-wise attenuation by factors in `[0, 1]` preserves the range at
every bounce). -/
theorem ray_color_channels_in_range (world : World) (hw : world_well_formed world)
    (ray : Ray) (hray : IsUnitVector ray.direction) (depth : ℤ)
    (hdepth : 0 ≤ depth) : color_in_range (ray_color world ray depth) :=
  ray_color_in_range_aux world hw depth.toNat depth (le_refl _) ray hray

/-- Witness for C7: the empty scene at depth 1 with a unit ray. -/
theorem ray_color_channels_in_range_witness :
    color_in_range (ray_color (fun _ => none) ⟨⟨0, 0, 0⟩, ⟨0, 0, -1⟩⟩ 1) :=
  ray_color_channels_in_range (fun _ => none)
    (by intro r hit material hcontra _ _; simp at hcontra)
    ⟨⟨0, 0, 0⟩, ⟨0, 0, -1⟩⟩
    (by
      rw [IsUnitVector, Vec3.length_eq_one_iff]
      norm_num [UnitVec3.inject, Vec3.length_squared])
    1 (by norm_num)

end TryRayTracing

end
